import Mathlib

/-!
Verification development for the contraceptive method choice and transition
engine of the fpsim repository (`fpsim/methods.py`).

The Python source is shallowly embedded: pure numeric code becomes functions
over `ℚ`, fallible code (attribute/key lookups, degenerate sampling) returns
`Except String`, and the random draws consumed by the code (uniform variates,
jitter samples, duration samples) become explicit oracle arguments.  Pieces of
the repository that are referenced but not part of the provided sources
(`fpsim/utils.py`, `fpsim/defaults.py`) are modelled from the specification and
are marked as such in their doc comments.
-/

namespace FPsim

/-- One contraceptive method of the catalog (`self.methods`, an ordered
`ndict` built from `fpd.method_list`): stable integer index `idx`, canonical
`name`, the CSV label `csv_name` used by the method-choice file, and the
`use_dist` duration-distribution parameters `par1`, `par2`. -/
structure Method where
  name : String
  csv_name : String
  idx : Nat
  par1 : ℚ
  par2 : ℚ
deriving Repr, DecidableEq

/-- One row of the population view: the per-agent attributes read by
`methods.py` (`ppl.age`, `ppl.parity`, `ppl.method`, `ppl.on_contra`,
`ppl.urban`, `ppl.edu_attainment`, `ppl.paid_employment`,
`ppl.decision_wages`, `ppl.decision_health`, `ppl.sexual_autonomy`). -/
structure Agent where
  age : ℚ
  parity : Nat
  method : Nat
  on_contra : ℚ
  urban : ℚ
  edu_attainment : ℚ
  paid_employment : ℚ
  decision_wages : ℚ
  decision_health : ℚ
  sexual_autonomy : ℚ
deriving Repr, DecidableEq

/-- Build an agent from the three attributes used by the method chooser and
duration scheduler, zeroing the empowerment attributes. -/
def mkAgent (age : ℚ) (parity : Nat) (method : Nat) : Agent :=
  ⟨age, parity, method, 0, 0, 0, 0, 0, 0, 0⟩

/-- An `Except`-valued map over a list: first failure aborts, mirroring how a
Python exception raised for one element aborts the whole call. -/
def mapE {α β : Type} (f : α → Except String β) : List α → Except String (List β)
  | [] => .ok []
  | x :: xs =>
    match f x with
    | .error e => .error e
    | .ok y =>
      match mapE f xs with
      | .error e => .error e
      | .ok ys => .ok (y :: ys)

/-- An `Except`-valued left fold: first failure aborts. -/
def foldE {α β : Type} (f : β → α → Except String β) : β → List α → Except String β
  | b, [] => .ok b
  | b, x :: xs =>
    match f b x with
    | .error e => .error e
    | .ok b2 => foldE f b2 xs

/-- Attribute access `p.name` on a `sc.objdict` of coefficients: a missing key
raises (`AttributeError` in Python), modelled as `Except.error`. -/
def cGet (d : List (String × ℚ)) (k : String) : Except String ℚ :=
  match d.find? (fun kv => kv.1 == k) with
  | some kv => .ok kv.2
  | none => .error ("missing coefficient: " ++ k)

/-- Embeds `SimpleChoice.get_prob_use` (methods.py lines 70-80): starts from
`p.intercept` (raising if absent), then adds `vval * ppl[vname]` for every
coefficient *present in the table* other than `intercept` — the loop is driven
by the table, not by a required-attribute list.  `ex` is the external
exponential `np.exp`; each agent's attributes are a lookup `String → ℚ`
mirroring `ppl[vname]`. -/
def simple_get_prob_use (coeffs : List (String × ℚ)) (ex : ℚ → ℚ)
    (ppl : List (String → ℚ)) : Except String (List ℚ) :=
  match cGet coeffs "intercept" with
  | .error e => .error e
  | .ok intercept =>
    .ok (ppl.map (fun a =>
      1 / (1 + ex (-(coeffs.foldl
        (fun rhs kv => if kv.1 ≠ "intercept" then rhs + kv.2 * a kv.1 else rhs)
        intercept)))))

/-- The coefficient names `EmpoweredChoice.get_prob_use` accesses explicitly
(methods.py lines 126-139; `wealthquintile` is commented out in the source). -/
def empoweredRequiredKeys : List String :=
  ["intercept", "age", "parity", "contraception", "urban", "edu_attainment",
   "paid_employment", "decision_wages", "decision_health", "sexual_autonomy"]

/-- Embeds `EmpoweredChoice.get_prob_use` (methods.py lines 118-141): every
coefficient is read by explicit attribute access, so any missing one raises at
the point of access; the linear predictor is then pushed through the logistic
link `1 / (1 + exp (-rhs))` for each agent of the index subset. -/
def empowered_get_prob_use (pars : List (String × ℚ)) (ex : ℚ → ℚ)
    (ppl : List Agent) : Except String (List ℚ) :=
  match cGet pars "intercept" with
  | .error e => .error e
  | .ok ci =>
  match cGet pars "age" with
  | .error e => .error e
  | .ok ca =>
  match cGet pars "parity" with
  | .error e => .error e
  | .ok cp =>
  match cGet pars "contraception" with
  | .error e => .error e
  | .ok cc =>
  match cGet pars "urban" with
  | .error e => .error e
  | .ok cu =>
  match cGet pars "edu_attainment" with
  | .error e => .error e
  | .ok ce =>
  match cGet pars "paid_employment" with
  | .error e => .error e
  | .ok cpe =>
  match cGet pars "decision_wages" with
  | .error e => .error e
  | .ok cdw =>
  match cGet pars "decision_health" with
  | .error e => .error e
  | .ok cdh =>
  match cGet pars "sexual_autonomy" with
  | .error e => .error e
  | .ok csa =>
  .ok (ppl.map (fun a =>
    1 / (1 + ex (-(ci + ca * a.age + cp * (a.parity : ℚ) + cc * a.on_contra
      + cu * a.urban + ce * a.edu_attainment + cpe * a.paid_employment
      + cdw * a.decision_wages + cdh * a.decision_health
      + csa * a.sexual_autonomy)))))

/-- Modelled from the spec: `fpu.binomial_arr` (fpsim/utils.py, not among the
provided sources) — the binomial draw that flags contraception users, one
Bernoulli outcome per probability; `us j` is the uniform variate consumed for
agent `j`, and the outcome is true when it falls below the probability. -/
def binomial_arr (probs : List ℚ) (us : Nat → ℚ) : List Bool :=
  probs.enum.map (fun ip => decide (us ip.1 < ip.2))

/-- Embeds `ContraceptiveChoice.get_contra_users` (methods.py lines 32-36): a
Bernoulli draw per entry of the probability vector returned by
`get_prob_use`. -/
def get_contra_users (prob_use : List ℚ) (us : Nat → ℚ) : List Bool :=
  binomial_arr prob_use us

/-- Embeds `sc.randround` (sciris): stochastic rounding of `x`, i.e.
`floor(x + u)` for a uniform variate `u` in `[0,1)`. -/
def randround (x u : ℚ) : ℤ :=
  ⌊x + u⌋

/-- Embeds `ContraceptiveChoice.set_dur_method` (methods.py lines 41-44):
`np.full(len(ppl), sc.randround(ppl.ti + self.dur_method/dt))` — one shared
stochastically rounded value, broadcast to every agent. -/
def base_set_dur_method (n : Nat) (ti : ℤ) (dur_method dt u : ℚ) : List ℤ :=
  List.replicate n (randround ((ti : ℚ) + dur_method / dt) u)

/-- The duration vector built by `EmpoweredChoice.set_dur_method`
(methods.py lines 180-189): `np.empty(len(ppl))` (its arbitrary initial
contents are the oracle `durInit`), then for each catalog method the entries
of its users are overwritten with a duration sample whose location parameter
is `par1 + age/100`.  `sampleD j p1 p2` is the oracle for `fpu.sample`
(fpsim/utils.py, not among the provided sources), modelled from the spec as
the duration-on-method sample for agent `j` under shifted parameters. -/
def durVec (methods : List Method) (sampleD : Nat → ℚ → ℚ → ℚ)
    (ppl : List Agent) (method_used : List Nat) (durInit : Nat → ℚ) : Nat → ℚ :=
  methods.foldl
    (fun dv m => fun j =>
      match method_used[j]? with
      | some mi =>
        if mi = m.idx then
          sampleD j (m.par1 + (match ppl[j]? with | some a => a.age | none => 0) / 100) m.par2
        else dv j
      | none => dv j)
    durInit

/-- Embeds `EmpoweredChoice.set_dur_method` (methods.py lines 177-194): samples a
per-agent duration (see `durVec`), then returns
`ppl.ti + sc.randround(dur_method/dt)`; `uround j` is the uniform variate of
agent `j`'s stochastic rounding.  There is no clamping step. -/
def empowered_set_dur_method (methods : List Method) (sampleD : Nat → ℚ → ℚ → ℚ)
    (uround : Nat → ℚ) (ti : ℤ) (dt : ℚ) (ppl : List Agent)
    (method_used : List Nat) (durInit : Nat → ℚ) : List ℤ :=
  (List.range ppl.length).map (fun j =>
    ti + randround (durVec methods sampleD ppl method_used durInit j / dt) (uround j))

/-- Modelled from the spec: `fpu.match_ages` (fpsim/utils.py, not among the
provided sources) — membership of an age in the group's `[low, high)` band —
combined here with the parity and current-method tests of methods.py line 160
(`match_low_high & (ppl.parity[inds] == parity) & (ppl.method[inds] == method.idx)`). -/
def agentMatches (age_low age_high : ℚ) (parity : Nat) (midx : Nat) (a : Agent) : Bool :=
  decide (age_low ≤ a.age) && decide (a.age < age_high)
    && (a.parity == parity) && (a.method == midx)

/-- The candidate shares of a Parameter Table cell after removing the agent's
current method (methods.py line 166:
`[v for k, v in mcp[key][parity].items() if k != mname]`). -/
def removeCurrent (cell : List (String × ℚ)) (mname : String) : List ℚ :=
  (cell.filter (fun kv => kv.1 ≠ mname)).map Prod.snd

/-- Zero-share sanitization (methods.py line 167:
`[p if p > 0 else p+fpu.sample(**jitter_dist)[0] for p in these_probs]`);
`jit i` is the oracle for the positive jitter sample drawn for position `i`
(`fpu.sample` with `dist='normal_pos'` is not among the provided sources and
is modelled from the spec as a positive-valued draw). -/
def applyJitter (ps : List ℚ) (jit : Nat → ℚ) : List ℚ :=
  ps.enum.map (fun ip => if 0 < ip.2 then ip.2 else ip.2 + jit ip.1)

/-- Renormalization (methods.py line 168:
`np.array(these_probs)/sum(these_probs)`). -/
def renormalize (ps : List ℚ) : List ℚ :=
  ps.map (fun p => p / ps.sum)

/-- The running sums of a share vector (the cumulative distribution used to
invert a uniform variate into a categorical outcome). -/
def cumsum : List ℚ → List ℚ
  | [] => []
  | p :: ps => p :: (cumsum ps).map (fun c => p + c)

/-- Modelled from the spec: one categorical outcome of `fpu.n_multinomial`
(fpsim/utils.py, not among the provided sources) — "Draw one categorical
outcome per agent in the stratum independently (multinomial sampling with the
computed probabilities)" — realised as the inverse CDF of the share vector at
the uniform variate `u`: the number of cumulative sums below `u`. -/
def catDraw (ps : List ℚ) (u : ℚ) : Nat :=
  (cumsum ps).countP (fun c => decide (c < u))

/-- One stratum of the `choose_method` triple loop: an age-group key with its
`[low, high)` band, a parity level, and a current catalog method. -/
structure Stratum where
  key : String
  age_low : ℚ
  age_high : ℚ
  parity : Nat
  mth : Method
deriving Repr, DecidableEq

/-- The strata enumerated by `choose_method` (methods.py lines 154-158): every
age-group of `fpd.immutable_method_age_map` (an external table, passed here as
`age_map`), every parity in `range(7)`, every catalog method. -/
def strata (age_map : List (String × ℚ × ℚ)) (methods : List Method) : List Stratum :=
  age_map.flatMap (fun b =>
    (List.range 7).flatMap (fun p =>
      methods.map (fun m => ⟨b.1, b.2.1, b.2.2, p, m⟩)))

/-- Embeds `self.methods[m].idx` (methods.py line 172): catalog lookup by name; a
missing name raises (`KeyError` in Python). -/
def findMethodIdx (methods : List Method) (mname : String) : Except String Nat :=
  match methods.find? (fun m => m.name == mname) with
  | some m => .ok m.idx
  | none => .error ("method not in catalog: " ++ mname)

/-- The body of the stratum loop of `EmpoweredChoice.choose_method`
(methods.py lines 158-173).  If no agent of `ppl` matches the stratum nothing
happens (`if len(switch_iinds):`).  Otherwise the candidate shares are built by
`removeCurrent`/`applyJitter`/`renormalize`; an empty candidate vector makes
the categorical draw fail (modelled from the spec: `fpu.n_multinomial` has no
outcome on empty support, and the spec requires an empty candidate set to be
surfaced as an error); then `method_inds` is built from the **full** cell key
list (`[self.methods[m].idx for m in mcp[key][parity].keys()]` — the current
method is *not* filtered out), and every matching agent `j` receives
`method_inds[catDraw ps (u ...)]`, with the out-of-bounds fancy-indexing error
of numpy modelled as `Except.error`.  `u key parity mname j` is the uniform
variate consumed for agent `j` in this stratum. -/
def stratumProbs (mcp : String → Nat → List (String × ℚ))
    (jit : String → Nat → String → Nat → ℚ) (s : Stratum) : List ℚ :=
  renormalize (applyJitter (removeCurrent (mcp s.key s.parity) s.mth.name)
    (jit s.key s.parity s.mth.name))

def stratumStep (methods : List Method) (mcp : String → Nat → List (String × ℚ))
    (jit : String → Nat → String → Nat → ℚ) (u : String → Nat → String → Nat → ℚ)
    (ppl : List Agent) (arr : List ℤ) (s : Stratum) : Except String (List ℤ) :=
  if ppl.any (agentMatches s.age_low s.age_high s.parity s.mth.idx) then
    if (stratumProbs mcp jit s).isEmpty then .error "empty candidate distribution" else
    match mapE (fun kv => findMethodIdx methods kv.1) (mcp s.key s.parity) with
    | .error e => .error e
    | .ok method_inds =>
      mapE (fun j =>
        match ppl[j]? with
        | some a =>
          if agentMatches s.age_low s.age_high s.parity s.mth.idx a then
            match method_inds[catDraw (stratumProbs mcp jit s)
                (u s.key s.parity s.mth.name j)]? with
            | some v => .ok (v : ℤ)
            | none => .error "choice position out of bounds"
          else .ok (arr.getD j 0)
        | none => .ok (arr.getD j 0))
        (List.range ppl.length)
  else .ok arr

/-- Embeds `EmpoweredChoice.choose_method` (methods.py lines 143-175) restricted to
the index subset: `ppl` is the subset view `ppl.*(inds)`, `init` the arbitrary
contents of the uninitialized `choice_array = np.empty(n_ppl)`, and the result
the final `choice_array.astype(int)`.  The triple loop over strata is a fold
of `stratumStep`. -/
def choose_method (methods : List Method) (mcp : String → Nat → List (String × ℚ))
    (age_map : List (String × ℚ × ℚ))
    (jit : String → Nat → String → Nat → ℚ) (u : String → Nat → String → Nat → ℚ)
    (ppl : List Agent) (init : List ℤ) : Except String (List ℤ) :=
  foldE (fun arr s => stratumStep methods mcp jit u ppl arr s) init
    (strata age_map methods)

/-- One row of the method-choice CSV consumed by
`EmpoweredChoice.process_method_pars`: columns `age_grp`, `parity`, `method`,
`percent`. -/
structure Row where
  age_grp : String
  parity : Nat
  method : String
  percent : ℚ
deriving Repr, DecidableEq

/-- Embeds `pandas.Series.unique`: the distinct values of a column in first-occurrence
order. -/
def uniqueVals {α : Type} [DecidableEq α] (l : List α) : List α :=
  l.foldl (fun acc x => if x ∈ acc then acc else acc ++ [x]) []

/-- Embeds `df.loc[(df.age_grp == akey) & (df.parity == pkey) & (df.method == mlabel)].percent.values[0]`
(methods.py line 108): the first matching row's percentage; an absent row
raises (`IndexError` on `values[0]`). -/
def findVal (tbl : List Row) (a : String) (p : Nat) (m : String) : Except String ℚ :=
  match tbl.find? (fun r => r.age_grp == a && r.parity == p && r.method == m) with
  | some r => .ok r.percent
  | none => .error "missing table row"

/-- Python dict assignment `d[k] = v`: overwrite the existing binding or append
a new one (insertion order preserved). -/
def dictSet : List (String × ℚ) → String → ℚ → List (String × ℚ)
  | [], k, v => [(k, v)]
  | kv :: rest, k, v => if kv.1 == k then (k, v) :: rest else kv :: dictSet rest k v

/-- Python dict read `d[k]`, as an `Option`: the first binding of `k`. -/
def dictGet : List (String × ℚ) → String → Option ℚ
  | [], _ => none
  | kv :: rest, k => if kv.1 == k then some kv.2 else dictGet rest k

/-- Embeds `[m.name for m in self.methods.values() if m.csv_name == mlabel][0]`
(methods.py line 110): translate a CSV method label to the catalog method
name; an absent label raises (`IndexError`). -/
def methodNameFor (methods : List Method) (lbl : String) : Except String String :=
  match methods.find? (fun m => m.csv_name == lbl) with
  | some m => .ok m.name
  | none => .error ("no catalog method for label: " ++ lbl)

/-- The inner label loop of `process_method_pars` (methods.py lines 107-113)
for one (age-group, parity) cell: threads the cell dict and the Python local
variable `abstinence_val` (which persists across iterations — and across
cells — exactly like the Python local; `none` models it being unbound). -/
def cellFold (tbl : List Row) (methods : List Method) (a : String) (p : Nat)
    (labels : List String) (st : List (String × ℚ) × Option ℚ) :
    Except String (List (String × ℚ) × Option ℚ) :=
  foldE (fun st lbl =>
    match findVal tbl a p lbl with
    | .error e => .error e
    | .ok val =>
      if lbl ≠ "Abstinence" then
        match methodNameFor methods lbl with
        | .error e => .error e
        | .ok mname => .ok (dictSet st.1 mname val, st.2)
      else .ok (st.1, some val)) st labels

/-- One (age-group, parity) cell of `process_method_pars` (methods.py lines
106-114): run the label loop starting from an empty dict, then
`dd[akey][pkey]['othtrad'] += abstinence_val` — a `KeyError` if `othtrad` is
absent, a `NameError` if `abstinence_val` was never assigned. -/
def processCell (tbl : List Row) (methods : List Method) (a : String) (p : Nat)
    (av0 : Option ℚ) : Except String (List (String × ℚ) × Option ℚ) :=
  match cellFold tbl methods a p (uniqueVals (tbl.map Row.method)) ([], av0) with
  | .error e => .error e
  | .ok (d, av) =>
    match av with
    | none => .error "NameError: abstinence_val is not defined"
    | some w =>
      match dictGet d "othtrad" with
      | none => .error "KeyError: othtrad"
      | some v => .ok (dictSet d "othtrad" (v + w), some w)

/-- One step of the outer two loops of `process_method_pars`: process the
cell for the (age-group, parity) pair `ap`, threading the dict-of-cells and
the `abstinence_val` local across cells. -/
def cellStep (tbl : List Row) (methods : List Method)
    (st : List ((String × Nat) × List (String × ℚ)) × Option ℚ)
    (ap : String × Nat) :
    Except String (List ((String × Nat) × List (String × ℚ)) × Option ℚ) :=
  match processCell tbl methods ap.1 ap.2 st.2 with
  | .error e => .error e
  | .ok (d, av) => .ok (st.1 ++ [(ap, d)], av)

/-- The (age-group, parity) pairs enumerated by `process_method_pars`
(methods.py lines 103-105): every distinct age-group of the table crossed
with every distinct parity. -/
def cellKeys (tbl : List Row) : List (String × Nat) :=
  (uniqueVals (tbl.map Row.age_grp)).flatMap (fun a =>
    (uniqueVals (tbl.map Row.parity)).map (fun p => (a, p)))

/-- Embeds `EmpoweredChoice.process_method_pars` (methods.py lines 99-116): for every
distinct age-group and parity of the table, build the cell dict (catalog
method name → share) with the Abstinence share folded into `othtrad`; the
result maps each (age-group, parity) pair to its cell. -/
def process_method_pars (tbl : List Row) (methods : List Method) :
    Except String (List ((String × Nat) × List (String × ℚ))) :=
  match foldE (cellStep tbl methods)
    (([] : List ((String × Nat) × List (String × ℚ))), (none : Option ℚ))
    (cellKeys tbl) with
  | .error e => .error e
  | .ok (dd, _) => .ok dd

/-- Modelled from the spec: `np.random.choice(np.arange(n_methods), size=...)`
of `RandomChoice.choose_method` (methods.py lines 57-60) — a uniform
categorical draw over `0 .. n_methods - 1` per agent, realised by inverting
each agent's uniform variate (`⌊u * n⌋`).  `SimpleChoice` inherits this
chooser unchanged. -/
def random_choose_method (n_methods : Nat) (us : List ℚ) : List Nat :=
  us.map (fun u => (⌊u * (n_methods : ℚ)⌋).toNat)

/-! ## Concrete fixtures

A small two-method catalog with the same shape as the real one (`othtrad` is
the "other traditional" method the Abstinence share is folded into), one age
band, and a parameter table giving both cell methods equal shares.  These are
used to evaluate the embedded functions on closed inputs. -/

def pillM : Method := ⟨"pill", "Pill", 0, 2, 1⟩

def othtradM : Method := ⟨"othtrad", "Other traditional", 1, 2, 1⟩

def methodsC : List Method := [pillM, othtradM]

def amapC : List (String × ℚ × ℚ) := [("18-25", 18, 25)]

def mcpC : String → Nat → List (String × ℚ) := fun _ _ => [("pill", 1/2), ("othtrad", 1/2)]

def jitC : String → Nat → String → Nat → ℚ := fun _ _ _ _ => 1/1000

def uC : String → Nat → String → Nat → ℚ := fun _ _ _ _ => 0

/-- An agent on method 0 (`pill`), age 20, parity 0: matched by the
(18-25, parity 0, pill) stratum. -/
def agentC : Agent := mkAgent 20 0 0

/-- An agent with parity 7: matched by no stratum (`for parity in range(7)`). -/
def agentP7 : Agent := mkAgent 20 7 0

/-- A method-choice table with two cells, both containing every CSV label of
the catalog plus an `Abstinence` row. -/
def tblC : List Row :=
  [⟨"18-25", 0, "Pill", 3/10⟩, ⟨"18-25", 0, "Other traditional", 2/10⟩,
   ⟨"18-25", 0, "Abstinence", 5/10⟩,
   ⟨"18-25", 1, "Pill", 6/10⟩, ⟨"18-25", 1, "Other traditional", 1/10⟩,
   ⟨"18-25", 1, "Abstinence", 3/10⟩]

/-- A full coefficient table for `EmpoweredChoice.get_prob_use`. -/
def parsC : List (String × ℚ) :=
  [("intercept", 1/10), ("age", 1/50), ("parity", 1/5), ("contraception", 3),
   ("urban", 1/2), ("edu_attainment", 1/4), ("paid_employment", 1/5),
   ("decision_wages", 1/5), ("decision_health", 1/5), ("sexual_autonomy", 1/5)]

/-! ## Helper lemmas about the `Except`-valued recursors -/

theorem mapE_ok_length {α β : Type} {f : α → Except String β} :
    ∀ {l : List α} {r : List β}, mapE f l = .ok r → r.length = l.length := by
  intro l
  induction l with
  | nil => intro r h; cases h; rfl
  | cons x xs ih =>
    intro r h
    unfold mapE at h
    cases hx : f x with
    | error e => rw [hx] at h; cases h
    | ok y =>
      rw [hx] at h
      cases hxs : mapE f xs with
      | error e => rw [hxs] at h; cases h
      | ok ys => rw [hxs] at h; cases h; simp [ih hxs]

theorem mapE_ok_getElem? {α β : Type} {f : α → Except String β} :
    ∀ {l : List α} {r : List β}, mapE f l = .ok r →
      ∀ (j : Nat) (x : α), l[j]? = some x → ∃ y, f x = .ok y ∧ r[j]? = some y := by
  intro l
  induction l with
  | nil => intro r _ j x hx; simp at hx
  | cons z xs ih =>
    intro r h j x hx
    unfold mapE at h
    cases hz : f z with
    | error e => rw [hz] at h; cases h
    | ok y =>
      rw [hz] at h
      cases hxs : mapE f xs with
      | error e => rw [hxs] at h; cases h
      | ok ys =>
        rw [hxs] at h; cases h
        cases j with
        | zero => rw [List.getElem?_cons_zero] at hx; cases hx; exact ⟨y, hz, by simp⟩
        | succ j =>
          simp only [List.getElem?_cons_succ] at hx ⊢
          exact ih hxs j x hx

theorem mapE_ok_mem {α β : Type} {f : α → Except String β} :
    ∀ {l : List α} {r : List β}, mapE f l = .ok r →
      ∀ y ∈ r, ∃ x ∈ l, f x = .ok y := by
  intro l
  induction l with
  | nil => intro r h y hy; cases h; simp at hy
  | cons z xs ih =>
    intro r h y hy
    unfold mapE at h
    cases hz : f z with
    | error e => rw [hz] at h; cases h
    | ok y0 =>
      rw [hz] at h
      cases hxs : mapE f xs with
      | error e => rw [hxs] at h; cases h
      | ok ys =>
        rw [hxs] at h; cases h
        rcases List.mem_cons.mp hy with rfl | hy2
        · exact ⟨z, List.mem_cons_self z xs, hz⟩
        · obtain ⟨x, hx, hfx⟩ := ih hxs y hy2
          exact ⟨x, List.mem_cons_of_mem z hx, hfx⟩

theorem foldE_ok_id {α β : Type} {f : β → α → Except String β} :
    ∀ {l : List α} {b : β}, (∀ b2 x, x ∈ l → f b2 x = .ok b2) →
      foldE f b l = .ok b := by
  intro l
  induction l with
  | nil => intro b _; rfl
  | cons x xs ih =>
    intro b h
    unfold foldE
    rw [h b x (List.mem_cons_self x xs)]
    exact ih (fun b2 z hz => h b2 z (List.mem_cons_of_mem x hz))

theorem foldE_error_of_mem {α β : Type} {f : β → α → Except String β} {x : α} :
    ∀ {l : List α} {b : β}, x ∈ l → (∀ b2, ∃ e, f b2 x = .error e) →
      ∃ e2, foldE f b l = .error e2 := by
  intro l
  induction l with
  | nil => intro b hx; simp at hx
  | cons z xs ih =>
    intro b hx h
    unfold foldE
    cases hz : f b z with
    | error e => exact ⟨e, rfl⟩
    | ok b2 =>
      rcases List.mem_cons.mp hx with rfl | hx2
      · obtain ⟨e, he⟩ := h b
        rw [he] at hz; cases hz
      · exact ih hx2 h

theorem foldE_invariant {α β : Type} {f : β → α → Except String β} {P : β → Prop} :
    ∀ {l : List α} {b c : β}, (∀ b2 x c2, x ∈ l → P b2 → f b2 x = .ok c2 → P c2) →
      foldE f b l = .ok c → P b → P c := by
  intro l
  induction l with
  | nil => intro b c _ h hb; cases h; exact hb
  | cons x xs ih =>
    intro b c hstep h hb
    unfold foldE at h
    cases hx : f b x with
    | error e => rw [hx] at h; cases h
    | ok b2 =>
      rw [hx] at h
      exact ih (fun b3 z c3 hz => hstep b3 z c3 (List.mem_cons_of_mem x hz))
        h (hstep b x b2 (List.mem_cons_self x xs) hb hx)

theorem foldE_append {α β : Type} (f : β → α → Except String β) :
    ∀ (l1 l2 : List α) (b : β),
      foldE f b (l1 ++ l2) =
        match foldE f b l1 with
        | .error e => .error e
        | .ok b2 => foldE f b2 l2 := by
  intro l1
  induction l1 with
  | nil => intro l2 b; rfl
  | cons x xs ih =>
    intro l2 b
    simp only [List.cons_append, foldE]
    cases hx : f b x with
    | error e => rfl
    | ok b2 => exact ih l2 b2

/-! ## Usage Predictor claims -/

theorem simple_rhs_foldl_zero (coeffs : List (String × ℚ)) (a : String → ℚ)
    (hz : ∀ kv ∈ coeffs, kv.2 = 0) :
    ∀ acc : ℚ, coeffs.foldl
      (fun rhs kv => if kv.1 ≠ "intercept" then rhs + kv.2 * a kv.1 else rhs) acc = acc := by
  induction coeffs with
  | nil => intro acc; rfl
  | cons kv rest ih =>
    intro acc
    have h0 : kv.2 = 0 := hz kv (List.mem_cons_self kv rest)
    have ih2 := ih (fun kv2 h2 => hz kv2 (List.mem_cons_of_mem kv h2))
    simp only [List.foldl_cons]
    rw [ih2]
    by_cases hk : kv.1 ≠ "intercept" <;> simp [hk, h0]

/-- C8: `SimpleChoice.get_prob_use` with a zero intercept and all-zero
coefficients returns probability exactly 1/2 for every agent, whatever the
attribute values, for any exponential with `ex 0 = 1`. -/
theorem c8_theorem (coeffs : List (String × ℚ)) (ex : ℚ → ℚ)
    (ppl : List (String → ℚ)) (hi : cGet coeffs "intercept" = .ok 0)
    (hz : ∀ kv ∈ coeffs, kv.2 = 0) (hex : ex 0 = 1) :
    simple_get_prob_use coeffs ex ppl = .ok (ppl.map (fun _ => 1/2)) := by
  unfold simple_get_prob_use
  rw [hi]
  have hf : ∀ a : String → ℚ,
      (1 : ℚ) / (1 + ex (-(coeffs.foldl
        (fun rhs kv => if kv.1 ≠ "intercept" then rhs + kv.2 * a kv.1 else rhs) 0))) = 1/2 := by
    intro a
    rw [simple_rhs_foldl_zero coeffs a hz 0, neg_zero, hex]
    norm_num
  simp only [hf]

/-- C8 witness: a zero coefficient table on a concrete agent with a nonzero
age attribute yields exactly 1/2. -/
theorem c8_witness :
    simple_get_prob_use [("intercept", 0), ("age", 0)] (fun _ => 1)
      [fun s => if s = "age" then 37 else 0] = .ok [1/2] := by
  have h := c8_theorem [("intercept", 0), ("age", 0)] (fun _ => 1)
    [fun s => if s = "age" then 37 else 0]
    (by with_unfolding_all rfl)
    (by intro kv hkv; fin_cases hkv <;> rfl) rfl
  simpa using h

/-- C5 counterexample: `SimpleChoice.get_prob_use` with a coefficient table
missing the required coefficient `age` (the agent's `age` attribute is 37)
returns a probability (`.ok`) instead of raising: the loop is driven by the
coefficients present in the table, so the missing one is silently weighted
zero. -/
theorem c5_counterexample :
    simple_get_prob_use [("intercept", 0)] (fun _ => 1)
        [fun s => if s = "age" then 37 else 0] = .ok [1/2]
      ∧ cGet [("intercept", 0)] "age" = .error "missing coefficient: age"
      ∧ "age" ∈ empoweredRequiredKeys := by
  refine ⟨by with_unfolding_all rfl, rfl, by decide⟩

/-- C5 amended: only `EmpoweredChoice.get_prob_use` fails fast on a missing
coefficient (every required coefficient is read by explicit attribute
access, so a successful call implies all of them were present), while
`SimpleChoice.get_prob_use` raises only for a missing `intercept`: with any
intercept present it always succeeds, silently ignoring any other absent
coefficient. -/
theorem c5_amended_theorem (pars : List (String × ℚ)) (ex : ℚ → ℚ)
    (ppl : List Agent) (out : List ℚ) (coeffs : List (String × ℚ))
    (ppl2 : List (String → ℚ)) (v : ℚ)
    (hok : empowered_get_prob_use pars ex ppl = .ok out)
    (hi : cGet coeffs "intercept" = .ok v) :
    (∀ k ∈ empoweredRequiredKeys, ∃ w, cGet pars k = .ok w)
      ∧ ∃ out2, simple_get_prob_use coeffs ex ppl2 = .ok out2 := by
  constructor
  · unfold empowered_get_prob_use at hok
    repeat' split at hok
    any_goals exact Except.noConfusion hok
    intro k hk
    fin_cases hk <;> exact ⟨_, by assumption⟩
  · unfold simple_get_prob_use
    rw [hi]
    exact ⟨_, rfl⟩

/-- C5 witness: with the full concrete coefficient table `parsC` the
empowered predictor succeeds, so every required key is present; and the
one-entry simple table succeeds despite missing every other coefficient. -/
theorem c5_amended_witness :
    (∀ k ∈ empoweredRequiredKeys, ∃ w, cGet parsC k = .ok w)
      ∧ ∃ out2, simple_get_prob_use [("intercept", 0)] (fun _ => 1)
          [fun _ => 0] = .ok out2 := by
  exact c5_amended_theorem parsC (fun _ => 1) [mkAgent 20 0 0] [1/2]
    [("intercept", 0)] [fun _ => 0] 0
    (by with_unfolding_all rfl) (by with_unfolding_all rfl)

/-! ## Method Chooser: the current-method off-by-one (C1) -/

/-- C1: evaluating `EmpoweredChoice.choose_method` on an agent whose current
method (`pill`, catalog index 0) is the *first* key of its Parameter Table
cell shows the call returning the agent's own current method index:
`these_probs` drops the current method, but `method_inds` is built from the
full cell key list, so drawn candidate position 0 maps back to cell
position 0 — the current method — instead of the first *remaining*
candidate. -/
theorem c1_code_evaluation :
    choose_method methodsC mcpC amapC jitC uC [agentC] [7] = .ok [(0 : ℤ)]
      ∧ agentC.method = 0 := by
  exact ⟨by with_unfolding_all rfl, rfl⟩

/-! ## Duration Scheduler (C3) -/

theorem durVec_nonneg (methods : List Method) (sampleD : Nat → ℚ → ℚ → ℚ)
    (ppl : List Agent) (method_used : List Nat) (durInit : Nat → ℚ)
    (hs : ∀ j p1 p2, 0 ≤ sampleD j p1 p2) (hd : ∀ j, 0 ≤ durInit j) :
    ∀ j, 0 ≤ durVec methods sampleD ppl method_used durInit j := by
  unfold durVec
  induction methods generalizing durInit with
  | nil => exact hd
  | cons m ms ih =>
    simp only [List.foldl_cons]
    apply ih
    intro j
    cases hj : method_used[j]? with
    | none => simpa [hj] using hd j
    | some mi =>
      by_cases hmi : mi = m.idx
      · simp [hj, hmi, hs]
      · simp [hj, hmi, hd j]

/-- C3 counterexample: an agent whose sampled duration is 0 with `ti = 5`,
`dt = 1` and a rounding draw of 0 receives next-review tick 5 — equal to the
current tick, not clamped to `5 + 1`: the code contains no clamping step. -/
theorem c3_counterexample :
    empowered_set_dur_method methodsC (fun _ _ _ => 0) (fun _ => 0) 5 1
        [agentC] [0] (fun _ => 0) = [(5 : ℤ)]
      ∧ ¬ ((5 : ℤ) < 5) := by
  exact ⟨by with_unfolding_all rfl, by omega⟩

/-- C3 amended: both `set_dur_method` variants return, per agent,
`current tick + randround(duration/dt)` (the floor of `duration/dt` plus a
uniform rounding draw).  With non-negative durations and draws this is `≥`
the current tick, and it is strictly greater exactly when `duration/dt`
plus the rounding draw reaches 1; a draw that rounds to zero ticks is not
clamped and yields the current tick itself. -/
theorem c3_amended_theorem :
    (∀ (n : Nat) (ti : ℤ) (dur_method dt u : ℚ) (j : Nat) (t : ℤ),
       0 ≤ dur_method / dt → 0 ≤ u →
       (base_set_dur_method n ti dur_method dt u)[j]? = some t →
       t = ti + ⌊dur_method / dt + u⌋ ∧ ti ≤ t ∧ (1 ≤ dur_method / dt + u → ti < t))
    ∧ (∀ (methods : List Method) (sampleD : Nat → ℚ → ℚ → ℚ) (uround : Nat → ℚ)
        (ti : ℤ) (dt : ℚ) (ppl : List Agent) (method_used : List Nat)
        (durInit : Nat → ℚ) (j : Nat) (t : ℤ),
        (∀ j2 p1 p2, 0 ≤ sampleD j2 p1 p2) → (∀ j2, 0 ≤ durInit j2) →
        (∀ j2, 0 ≤ uround j2) → 0 < dt →
        (empowered_set_dur_method methods sampleD uround ti dt ppl
          method_used durInit)[j]? = some t →
        t = ti + randround (durVec methods sampleD ppl method_used durInit j / dt)
              (uround j)
          ∧ ti ≤ t
          ∧ (1 ≤ durVec methods sampleD ppl method_used durInit j / dt + uround j →
              ti < t)) := by
  constructor
  · intro n ti dur_method dt u j t hdd hu ht
    unfold base_set_dur_method at ht
    rw [List.getElem?_replicate] at ht
    split at ht
    · cases ht
      unfold randround
      have hfl : ⌊(ti : ℚ) + dur_method / dt + u⌋ = ti + ⌊dur_method / dt + u⌋ := by
        rw [add_assoc, Int.floor_int_add]
      have h0 : (0 : ℤ) ≤ ⌊dur_method / dt + u⌋ := by
        rw [Int.le_floor]
        push_cast
        linarith
      refine ⟨hfl, by rw [hfl]; omega, ?_⟩
      intro h1
      have h1f : (1 : ℤ) ≤ ⌊dur_method / dt + u⌋ := by
        rw [Int.le_floor]
        push_cast
        linarith
      rw [hfl]
      omega
    · cases ht
  · intro methods sampleD uround ti dt ppl method_used durInit j t hs hd hu hdt ht
    unfold empowered_set_dur_method at ht
    have hj : j < ppl.length := by
      by_contra hge
      rw [List.getElem?_eq_none
        (by simp only [List.length_map, List.length_range]; omega)] at ht
      cases ht
    rw [List.getElem?_map, List.getElem?_range hj] at ht
    simp only [Option.map_some'] at ht
    cases ht
    have hdv : 0 ≤ durVec methods sampleD ppl method_used durInit j :=
      durVec_nonneg methods sampleD ppl method_used durInit hs hd j
    have hq : 0 ≤ durVec methods sampleD ppl method_used durInit j / dt + uround j := by
      have h1 := div_nonneg hdv (le_of_lt hdt)
      have h2 := hu j
      linarith
    have h0 : (0 : ℤ) ≤ randround
        (durVec methods sampleD ppl method_used durInit j / dt) (uround j) := by
      unfold randround
      rw [Int.le_floor]
      push_cast
      linarith
    refine ⟨rfl, by omega, ?_⟩
    intro h1
    have h1f : (1 : ℤ) ≤ randround
        (durVec methods sampleD ppl method_used durInit j / dt) (uround j) := by
      unfold randround
      rw [Int.le_floor]
      push_cast
      linarith
    omega

/-- C3 witness: the base scheduler at `ti = 5`, `dur_method = 12`, `dt = 1`
gives tick 17 > 5; the empowered scheduler with a constant duration sample of
3 gives tick 8 > 5. -/
theorem c3_amended_witness :
    ((17 : ℤ) = 5 + ⌊(12 : ℚ) / 1 + 0⌋ ∧ (5 : ℤ) ≤ 17
        ∧ (1 ≤ (12 : ℚ) / 1 + 0 → (5 : ℤ) < 17))
      ∧ ((8 : ℤ) = 5 + randround
            (durVec methodsC (fun _ _ _ => 3) [agentC] [0] (fun _ => 0) 0 / 1)
            ((fun _ => (0 : ℚ)) 0)
          ∧ (5 : ℤ) ≤ 8
          ∧ (1 ≤ durVec methodsC (fun _ _ _ => 3) [agentC] [0] (fun _ => 0) 0 / 1
              + (fun _ => (0 : ℚ)) 0 → (5 : ℤ) < 8)) := by
  constructor
  · exact c3_amended_theorem.1 1 5 12 1 0 0 17 (by norm_num) le_rfl
      (by with_unfolding_all rfl)
  · exact c3_amended_theorem.2 methodsC (fun _ _ _ => 3) (fun _ => 0) 5 1
      [agentC] [0] (fun _ => 0) 0 8 (fun _ _ _ => by norm_num) (fun _ => le_rfl)
      (fun _ => le_rfl) (by norm_num) (by with_unfolding_all rfl)

/-! ## Candidate distribution normalization (C6) -/

theorem sum_map_div (ps : List ℚ) (s : ℚ) :
    (ps.map (fun p => p / s)).sum = ps.sum / s := by
  induction ps with
  | nil => simp
  | cons p rest ih => simp [ih, add_div]

/-- C6: for any table cell with non-negative shares whose candidate list
after current-method removal is non-empty, the vector after jittering the
zero shares and renormalizing has every entry strictly positive and sums
exactly to 1. -/
theorem c6_theorem (cell : List (String × ℚ)) (mname : String) (jit : Nat → ℚ)
    (hnn : ∀ kv ∈ cell, 0 ≤ kv.2) (hjit : ∀ i, 0 < jit i)
    (hne : removeCurrent cell mname ≠ []) :
    (∀ p ∈ renormalize (applyJitter (removeCurrent cell mname) jit), 0 < p)
      ∧ (renormalize (applyJitter (removeCurrent cell mname) jit)).sum = 1 := by
  have hnn0 : ∀ p ∈ removeCurrent cell mname, 0 ≤ p := by
    intro p hp
    unfold removeCurrent at hp
    obtain ⟨kv, hkv, rfl⟩ := List.mem_map.mp hp
    exact hnn kv (List.mem_of_mem_filter hkv)
  have hpos1 : ∀ q ∈ applyJitter (removeCurrent cell mname) jit, 0 < q := by
    intro q hq
    unfold applyJitter at hq
    obtain ⟨ip, hip, rfl⟩ := List.mem_map.mp hq
    have hmem : ip.2 ∈ removeCurrent cell mname := by
      have := List.mem_map_of_mem Prod.snd hip
      rwa [List.enum_map_snd] at this
    have h0 : 0 ≤ ip.2 := hnn0 ip.2 hmem
    by_cases hgt : 0 < ip.2
    · simp only [if_pos hgt]
      exact hgt
    · have : ip.2 = 0 := le_antisymm (not_lt.mp hgt) h0
      simp only [hgt, if_false]
      rw [this]
      simpa using hjit ip.1
  have hne1 : applyJitter (removeCurrent cell mname) jit ≠ [] := by
    unfold applyJitter
    intro hcon
    apply hne
    have := congrArg List.length hcon
    simp only [List.length_map, List.enum_length, List.length_nil] at this
    exact List.eq_nil_of_length_eq_zero this
  have hsum1 : 0 < (applyJitter (removeCurrent cell mname) jit).sum :=
    List.sum_pos _ hpos1 hne1
  constructor
  · intro p hp
    unfold renormalize at hp
    obtain ⟨q, hq, rfl⟩ := List.mem_map.mp hp
    exact div_pos (hpos1 q hq) hsum1
  · unfold renormalize
    rw [sum_map_div]
    exact div_self (ne_of_gt hsum1)

/-- C6 witness: the fixture cell `{pill: 1/2, othtrad: 0}` with current
method `pill`, after jitter and renormalization, is the one-point
distribution on `othtrad`: strictly positive and summing to 1. -/
theorem c6_witness :
    (∀ p ∈ renormalize (applyJitter
        (removeCurrent [("pill", 1/2), ("othtrad", 0)] "pill") (fun _ => 1/1000)), 0 < p)
      ∧ (renormalize (applyJitter
          (removeCurrent [("pill", 1/2), ("othtrad", 0)] "pill")
          (fun _ => 1/1000))).sum = 1 := by
  exact c6_theorem [("pill", 1/2), ("othtrad", 0)] "pill" (fun _ => 1/1000)
    (by intro kv hkv; fin_cases hkv <;> norm_num)
    (fun _ => by norm_num)
    (by with_unfolding_all decide)

/-! ## Method Chooser machinery -/

theorem strata_mem (age_map : List (String × ℚ × ℚ)) (methods : List Method)
    (s : Stratum) (hs : s ∈ strata age_map methods) :
    (s.key, s.age_low, s.age_high) ∈ age_map ∧ s.parity < 7 ∧ s.mth ∈ methods := by
  unfold strata at hs
  simp only [List.mem_flatMap, List.mem_map, List.mem_range] at hs
  obtain ⟨b, hb, p, hp, m, hm, heq⟩ := hs
  cases heq
  exact ⟨by simpa using hb, hp, hm⟩

theorem stratumStep_ok_cases (methods : List Method)
    (mcp : String → Nat → List (String × ℚ))
    (jit u : String → Nat → String → Nat → ℚ) (ppl : List Agent)
    (arr arr2 : List ℤ) (s : Stratum)
    (h : stratumStep methods mcp jit u ppl arr s = .ok arr2) :
    (ppl.any (agentMatches s.age_low s.age_high s.parity s.mth.idx) = false
        ∧ arr2 = arr)
    ∨ (arr2.length = ppl.length ∧ ∀ (j : Nat) (a : Agent), ppl[j]? = some a →
        if agentMatches s.age_low s.age_high s.parity s.mth.idx a
        then ∃ m ∈ methods, arr2[j]? = some ((m.idx : ℤ))
        else arr2[j]? = some (arr.getD j 0)) := by
  unfold stratumStep at h
  split at h
  case isFalse hany =>
    cases h
    exact Or.inl ⟨Bool.not_eq_true _ ▸ eq_false_of_ne_true hany, rfl⟩
  case isTrue hany =>
    split at h
    · cases h
    · split at h
      · cases h
      case h_2 method_inds hminds =>
        refine Or.inr ⟨by rw [mapE_ok_length h]; simp, ?_⟩
        intro j a hja
        have hlt : j < ppl.length := by
          by_contra hge
          rw [List.getElem?_eq_none (by omega)] at hja
          cases hja
        obtain ⟨y, hg, harr⟩ :=
          mapE_ok_getElem? h j j (List.getElem?_range hlt)
        split at hg
        case h_2 heqa => rw [hja] at heqa; cases heqa
        case h_1 a2 heqa =>
          rw [hja] at heqa
          cases heqa
          split at hg
          case isTrue hm =>
            rw [if_pos hm]
            split at hg
            case h_2 => cases hg
            case h_1 v hv =>
              cases hg
              have hvmem : v ∈ method_inds := List.getElem?_mem hv
              obtain ⟨kv, _, hkv⟩ := mapE_ok_mem hminds v hvmem
              unfold findMethodIdx at hkv
              split at hkv
              case h_2 => cases hkv
              case h_1 m hfind =>
                cases hkv
                exact ⟨m, List.mem_of_find?_eq_some hfind, harr⟩
          case isFalse hm =>
            rw [if_neg hm]
            cases hg
            exact harr


theorem agentMatches_iff (lo hi : ℚ) (p midx : Nat) (a : Agent) :
    agentMatches lo hi p midx a = true ↔
      (lo ≤ a.age ∧ a.age < hi ∧ a.parity = p ∧ a.method = midx) := by
  unfold agentMatches
  simp only [Bool.and_eq_true, decide_eq_true_eq, beq_iff_eq]
  tauto

/-- C2 counterexample: an agent with parity 7 is matched by no stratum
(`for parity in range(7)`), so the uninitialized `np.empty` slot (here the
arbitrary value 5) is returned unchanged — an index outside
`[0, catalog_size)` for the 2-method catalog. -/
theorem c2_counterexample :
    choose_method methodsC mcpC amapC jitC uC [agentP7] [5] = .ok [(5 : ℤ)]
      ∧ methodsC.length = 2 ∧ ¬ ((5 : ℤ) < 2) := by
  exact ⟨by with_unfolding_all rfl, rfl, by omega⟩

/-- C2 amended: the range guarantee holds for `RandomChoice.choose_method`
(inherited unchanged by `SimpleChoice`) for every agent, and for
`EmpoweredChoice.choose_method` for every agent matched by some
(age-band, parity 0..6, current-method) stratum; an agent matched by no
stratum keeps the uninitialized array slot (see the C10 theorem and the C2
counterexample). -/
theorem c2_amended_theorem :
    (∀ (n : Nat) (us : List ℚ), 0 < n → (∀ u2 ∈ us, 0 ≤ u2 ∧ u2 < 1) →
      ∀ c ∈ random_choose_method n us, c < n)
    ∧ (∀ (methods : List Method) (mcp : String → Nat → List (String × ℚ))
        (age_map : List (String × ℚ × ℚ))
        (jit u : String → Nat → String → Nat → ℚ) (ppl : List Agent)
        (init out : List ℤ) (j : Nat) (a : Agent) (s : Stratum),
        (∀ m ∈ methods, m.idx < methods.length) →
        ppl[j]? = some a →
        s ∈ strata age_map methods →
        agentMatches s.age_low s.age_high s.parity s.mth.idx a = true →
        choose_method methods mcp age_map jit u ppl init = .ok out →
        ∃ m ∈ methods, out[j]? = some ((m.idx : ℤ)) ∧ m.idx < methods.length) := by
  constructor
  · intro n us hn hus c hc
    unfold random_choose_method at hc
    obtain ⟨u2, hu2, rfl⟩ := List.mem_map.mp hc
    obtain ⟨h0, h1⟩ := hus u2 hu2
    have hnq : (0 : ℚ) < (n : ℚ) := by exact_mod_cast hn
    have hlt : ⌊u2 * (n : ℚ)⌋ < (n : ℤ) := by
      rw [Int.floor_lt]
      push_cast
      nlinarith
    omega
  · intro methods mcp age_map jit u ppl init out j a s hidx hja hs hm hok
    obtain ⟨l1, l2, hsplit⟩ := List.append_of_mem hs
    unfold choose_method at hok
    rw [hsplit, foldE_append] at hok
    split at hok
    · cases hok
    case h_2 b1 hb1 =>
      simp only [foldE] at hok
      split at hok
      · cases hok
      case h_2 b2 hb2 =>
        have hmem : a ∈ ppl := List.getElem?_mem hja
        have hany : ppl.any (agentMatches s.age_low s.age_high s.parity s.mth.idx)
            = true := List.any_eq_true.mpr ⟨a, hmem, hm⟩
        rcases stratumStep_ok_cases methods mcp jit u ppl b1 b2 s hb2 with
          ⟨hf, _⟩ | ⟨hlen2, hall⟩
        · rw [hany] at hf; cases hf
        · have hj2 := hall j a hja
          rw [if_pos hm] at hj2
          obtain ⟨m, hmmem, hjv⟩ := hj2
          have hstep : ∀ (b3 : List ℤ) (s2 : Stratum) (c3 : List ℤ), s2 ∈ l2 →
              (∃ m3 ∈ methods, b3[j]? = some ((m3.idx : ℤ))) →
              stratumStep methods mcp jit u ppl b3 s2 = .ok c3 →
              ∃ m3 ∈ methods, c3[j]? = some ((m3.idx : ℤ)) := by
            intro b3 s2 c3 _ hb3 hstep2
            obtain ⟨m3, hm3, hv3⟩ := hb3
            rcases stratumStep_ok_cases methods mcp jit u ppl b3 c3 s2 hstep2 with
              ⟨_, rfl⟩ | ⟨hlen3, hall3⟩
            · exact ⟨m3, hm3, hv3⟩
            · have h3 := hall3 j a hja
              by_cases hmm : agentMatches s2.age_low s2.age_high s2.parity
                  s2.mth.idx a = true
              · rw [if_pos hmm] at h3
                exact h3
              · rw [if_neg hmm] at h3
                refine ⟨m3, hm3, ?_⟩
                rw [h3, List.getD_eq_getElem?_getD, hv3]
                rfl
          obtain ⟨m2, hm2, hv2⟩ :=
            foldE_invariant hstep hok ⟨m, hmmem, hjv⟩
          exact ⟨m2, hm2, hv2, hidx m2 hm2⟩

/-- C2 witness: the uniform chooser stays below the catalog size, and the
data-driven chooser writes a catalog index for the covered fixture agent. -/
theorem c2_amended_witness :
    (∀ c ∈ random_choose_method 2 [1/2], c < 2)
      ∧ ∃ m ∈ methodsC, ([(0 : ℤ)])[0]? = some ((m.idx : ℤ))
          ∧ m.idx < methodsC.length := by
  constructor
  · exact c2_amended_theorem.1 2 [1/2] (by omega)
      (by intro u2 hu2; fin_cases hu2; constructor <;> norm_num)
  · exact c2_amended_theorem.2 methodsC mcpC amapC jitC uC [agentC] [7] [(0 : ℤ)]
      0 agentC ⟨"18-25", 18, 25, 0, pillM⟩
      (by intro m hm; fin_cases hm <;> decide)
      (by simp)
      (by with_unfolding_all decide)
      (by with_unfolding_all decide)
      (by with_unfolding_all rfl)

/-- C10: an agent of the index subset matched by no stratum — age outside
every band of the age map, or parity 7 or more, or a current method index
matching no catalog method — keeps whatever value the uninitialized
`np.empty` slot held (`init`, universally quantified here), cast to int,
with no error raised. -/
theorem c10_theorem (methods : List Method) (mcp : String → Nat → List (String × ℚ))
    (age_map : List (String × ℚ × ℚ)) (jit u : String → Nat → String → Nat → ℚ)
    (ppl : List Agent) (init out : List ℤ) (j : Nat) (a : Agent)
    (hlen : init.length = ppl.length) (hja : ppl[j]? = some a)
    (hun : (∀ kv ∈ age_map, ¬ (kv.2.1 ≤ a.age ∧ a.age < kv.2.2))
        ∨ 7 ≤ a.parity
        ∨ (∀ m ∈ methods, m.idx ≠ a.method))
    (hok : choose_method methods mcp age_map jit u ppl init = .ok out) :
    out[j]? = init[j]? := by
  have hjlt : j < ppl.length := by
    by_contra hge
    rw [List.getElem?_eq_none (by omega)] at hja
    cases hja
  have hfalse : ∀ s ∈ strata age_map methods,
      agentMatches s.age_low s.age_high s.parity s.mth.idx a = false := by
    intro s hsmem
    obtain ⟨hband, hpar, hmth⟩ := strata_mem age_map methods s hsmem
    rw [Bool.eq_false_iff]
    intro htrue
    obtain ⟨h1, h2, h3, h4⟩ := (agentMatches_iff _ _ _ _ _).mp htrue
    rcases hun with hage | hpge | hnom
    · exact hage (s.key, s.age_low, s.age_high) hband ⟨h1, h2⟩
    · omega
    · exact hnom s.mth hmth h4.symm
  unfold choose_method at hok
  have hinv := foldE_invariant
    (P := fun arr => arr.length = ppl.length ∧ arr[j]? = init[j]?)
    ?hstep hok ⟨hlen, rfl⟩
  · exact hinv.2
  case hstep =>
    intro b2 s c2 hsmem hb2 hstep2
    rcases stratumStep_ok_cases methods mcp jit u ppl b2 c2 s hstep2 with
      ⟨_, rfl⟩ | ⟨hlen2, hall⟩
    · exact hb2
    · refine ⟨hlen2, ?_⟩
      have h3 := hall j a hja
      rw [if_neg (by rw [hfalse s hsmem]; exact Bool.false_ne_true)] at h3
      rw [h3, List.getD_eq_getElem?_getD, hb2.2]
      rw [List.getElem?_eq_getElem (by omega)]
      rfl

/-- C10 witness: the parity-7 fixture agent keeps the arbitrary
uninitialized slot value 9. -/
theorem c10_witness :
    ∃ out, choose_method methodsC mcpC amapC jitC uC [agentP7] [9] = .ok out
      ∧ out[0]? = ([(9 : ℤ)])[0]? := by
  refine ⟨[(9 : ℤ)], by with_unfolding_all rfl, ?_⟩
  exact c10_theorem methodsC mcpC amapC jitC uC [agentP7] [9] [(9 : ℤ)] 0 agentP7
    rfl (by simp) (Or.inr (Or.inl (by decide))) (by with_unfolding_all rfl)

/-- C7: if some stratum has a matching agent but its Parameter Table cell
contains only the current method (the candidate list after removal is
empty), `choose_method` returns an error rather than skipping the stratum
or producing a result. -/
theorem c7_theorem (methods : List Method) (mcp : String → Nat → List (String × ℚ))
    (age_map : List (String × ℚ × ℚ)) (jit u : String → Nat → String → Nat → ℚ)
    (ppl : List Agent) (init : List ℤ) (s : Stratum)
    (hs : s ∈ strata age_map methods)
    (hmatch : ppl.any (agentMatches s.age_low s.age_high s.parity s.mth.idx) = true)
    (hempty : removeCurrent (mcp s.key s.parity) s.mth.name = []) :
    ∃ e, choose_method methods mcp age_map jit u ppl init = .error e := by
  unfold choose_method
  apply foldE_error_of_mem hs
  intro b2
  refine ⟨"empty candidate distribution", ?_⟩
  have hps : (stratumProbs mcp jit s).isEmpty = true := by
    unfold stratumProbs
    rw [hempty]
    rfl
  unfold stratumStep
  rw [if_pos hmatch, if_pos hps]

/-- C7 witness: a one-method catalog whose only cell entry is the agent's
current method makes `choose_method` fail. -/
theorem c7_witness :
    ∃ e, choose_method [pillM] (fun _ _ => [("pill", 1)]) amapC jitC uC
      [agentC] [7] = .error e := by
  exact c7_theorem [pillM] (fun _ _ => [("pill", 1)]) amapC jitC uC [agentC] [7]
    ⟨"18-25", 18, 25, 0, pillM⟩
    (by with_unfolding_all decide)
    (by with_unfolding_all decide)
    (by decide)

/-- C9: with a complete coefficient table, each of the four operations on an
empty index subset returns an empty vector and no error. -/
theorem c9_theorem (pars : List (String × ℚ)) (ex : ℚ → ℚ) (us : Nat → ℚ)
    (methods : List Method) (mcp : String → Nat → List (String × ℚ))
    (age_map : List (String × ℚ × ℚ)) (jit u : String → Nat → String → Nat → ℚ)
    (sampleD : Nat → ℚ → ℚ → ℚ) (uround : Nat → ℚ) (ti : ℤ) (dt : ℚ)
    (durInit : Nat → ℚ)
    (hok : ∀ k ∈ empoweredRequiredKeys, ∃ v, cGet pars k = .ok v) :
    empowered_get_prob_use pars ex [] = .ok []
      ∧ get_contra_users [] us = []
      ∧ choose_method methods mcp age_map jit u [] [] = .ok []
      ∧ empowered_set_dur_method methods sampleD uround ti dt [] [] durInit = [] := by
  refine ⟨?_, rfl, ?_, rfl⟩
  · obtain ⟨v1, h1⟩ := hok "intercept" (by decide)
    obtain ⟨v2, h2⟩ := hok "age" (by decide)
    obtain ⟨v3, h3⟩ := hok "parity" (by decide)
    obtain ⟨v4, h4⟩ := hok "contraception" (by decide)
    obtain ⟨v5, h5⟩ := hok "urban" (by decide)
    obtain ⟨v6, h6⟩ := hok "edu_attainment" (by decide)
    obtain ⟨v7, h7⟩ := hok "paid_employment" (by decide)
    obtain ⟨v8, h8⟩ := hok "decision_wages" (by decide)
    obtain ⟨v9, h9⟩ := hok "decision_health" (by decide)
    obtain ⟨v10, h10⟩ := hok "sexual_autonomy" (by decide)
    unfold empowered_get_prob_use
    rw [h1, h2, h3, h4, h5, h6, h7, h8, h9, h10]
    rfl
  · unfold choose_method
    apply foldE_ok_id
    intro b2 s _
    unfold stratumStep
    rfl

/-- C9 witness: the four operations at the concrete fixtures, all on the
empty subset. -/
theorem c9_witness :
    empowered_get_prob_use parsC (fun _ => 1) [] = .ok []
      ∧ get_contra_users [] (fun _ => 1/2) = []
      ∧ choose_method methodsC mcpC amapC jitC uC [] [] = .ok []
      ∧ empowered_set_dur_method methodsC (fun _ _ _ => 0) (fun _ => 0) 5 1 [] []
          (fun _ => 0) = [] := by
  exact c9_theorem parsC (fun _ => 1) (fun _ => 1/2) methodsC mcpC amapC jitC uC
    (fun _ _ _ => 0) (fun _ => 0) 5 1 (fun _ => 0)
    (by intro k hk; fin_cases hk <;> exact ⟨_, rfl⟩)


/-! ## Parameter Table loader (C4) -/

theorem dictGet_nil (k : String) : dictGet [] k = none := rfl

theorem dictGet_dictSet_self (d : List (String × ℚ)) (k : String) (v : ℚ) :
    dictGet (dictSet d k v) k = some v := by
  induction d with
  | nil => simp [dictSet, dictGet]
  | cons kv rest ih =>
    by_cases hk : (kv.1 == k) = true
    · simp [dictSet, hk, dictGet]
    · simp [dictSet, hk, dictGet, ih]

theorem dictGet_dictSet_ne (d : List (String × ℚ)) (k k2 : String) (v : ℚ)
    (h : k2 ≠ k) : dictGet (dictSet d k v) k2 = dictGet d k2 := by
  have hne : (k == k2) = false := by simpa using fun hkk => h hkk.symm
  induction d with
  | nil => simp [dictSet, dictGet, hne]
  | cons kv rest ih =>
    by_cases hk : (kv.1 == k) = true
    · have hkv : kv.1 = k := by simpa using hk
      simp [dictSet, hk, dictGet, hne, hkv]
    · by_cases hk2 : (kv.1 == k2) = true
      · simp [dictSet, hk, dictGet, hk2]
      · simp [dictSet, hk, dictGet, hk2, ih]

theorem methodNameFor_ne_abstinence (methods : List Method) (lbl mname : String)
    (habst : ∀ m ∈ methods, m.name ≠ "Abstinence")
    (h : methodNameFor methods lbl = .ok mname) : mname ≠ "Abstinence" := by
  unfold methodNameFor at h
  split at h
  case h_2 => cases h
  case h_1 m hfind =>
    cases h
    exact habst m (List.mem_of_find?_eq_some hfind)

theorem cellFold_char (tbl : List Row) (methods : List Method) (a : String) (p : Nat)
    (habst : ∀ m ∈ methods, m.name ≠ "Abstinence") :
    ∀ (labels : List String) (d0 : List (String × ℚ)) (av0 : Option ℚ)
      (d : List (String × ℚ)) (av : Option ℚ),
      cellFold tbl methods a p labels (d0, av0) = .ok (d, av) →
      (dictGet d "Abstinence" = dictGet d0 "Abstinence")
      ∧ ("Abstinence" ∈ labels →
          ∃ w, findVal tbl a p "Abstinence" = .ok w ∧ av = some w)
      ∧ ("Abstinence" ∉ labels → av = av0)
      ∧ ((dictGet d "othtrad" = dictGet d0 "othtrad")
          ∨ ∃ lbl ∈ labels, lbl ≠ "Abstinence"
              ∧ methodNameFor methods lbl = .ok "othtrad"
              ∧ ∃ v, findVal tbl a p lbl = .ok v ∧ dictGet d "othtrad" = some v) := by
  intro labels
  induction labels with
  | nil =>
    intro d0 av0 d av h
    unfold cellFold foldE at h
    injection h with h2
    injection h2 with h3 h4
    subst h3
    subst h4
    exact ⟨rfl, by simp, fun _ => rfl, Or.inl rfl⟩
  | cons lbl rest ih =>
    intro d0 av0 d av h
    unfold cellFold at h ih
    simp only [foldE] at h
    split at h
    · cases h
    case h_2 b2 heq =>
      split at heq
      · cases heq
      case h_2 val hval =>
        split at heq
        case isTrue hne =>
          split at heq
          · cases heq
          case h_2 mname hmn =>
            cases heq
            obtain ⟨ha, hb, hb2, hc⟩ := ih (dictSet d0 mname val) av0 d av h
            have hmne : mname ≠ "Abstinence" :=
              methodNameFor_ne_abstinence methods lbl mname habst hmn
            refine ⟨?_, ?_, ?_, ?_⟩
            · rw [ha, dictGet_dictSet_ne d0 mname "Abstinence" val
                (fun hcon => hmne hcon.symm)]
            · intro hmem
              rcases List.mem_cons.mp hmem with hl | hr
              · exact absurd hl.symm hne
              · exact hb hr
            · intro hnmem
              exact hb2 (fun hr => hnmem (List.mem_cons_of_mem lbl hr))
            · rcases hc with hleft | ⟨lbl2, hlbl2, hlne2, hlmn2, v2, hv2, hd2⟩
              · by_cases hmo : mname = "othtrad"
                · subst hmo
                  refine Or.inr ⟨lbl, List.mem_cons_self lbl rest, hne, hmn,
                    val, hval, ?_⟩
                  rw [hleft, dictGet_dictSet_self]
                · refine Or.inl ?_
                  rw [hleft, dictGet_dictSet_ne d0 mname "othtrad" val
                    (fun hcon => hmo hcon.symm)]
              · exact Or.inr ⟨lbl2, List.mem_cons_of_mem lbl hlbl2, hlne2,
                  hlmn2, v2, hv2, hd2⟩
        case isFalse hne =>
          have hlbl : lbl = "Abstinence" := not_not.mp hne
          subst hlbl
          cases heq
          obtain ⟨ha, hb, hb2, hc⟩ := ih d0 (some val) d av h
          refine ⟨ha, ?_, ?_, ?_⟩
          · intro _
            by_cases hrest : "Abstinence" ∈ rest
            · exact hb hrest
            · exact ⟨val, hval, hb2 hrest⟩
          · intro hnmem
            exact absurd (List.mem_cons_self _ rest) hnmem
          · rcases hc with hleft | ⟨lbl2, hlbl2, hlne2, hlmn2, v2, hv2, hd2⟩
            · exact Or.inl hleft
            · exact Or.inr ⟨lbl2, List.mem_cons_of_mem _ hlbl2, hlne2,
                hlmn2, v2, hv2, hd2⟩


theorem processCell_char (tbl : List Row) (methods : List Method)
    (a : String) (p : Nat) (av0 : Option ℚ)
    (d : List (String × ℚ)) (av2 : Option ℚ)
    (habst : ∀ m ∈ methods, m.name ≠ "Abstinence")
    (hmem : "Abstinence" ∈ uniqueVals (tbl.map Row.method))
    (h : processCell tbl methods a p av0 = .ok (d, av2)) :
    dictGet d "Abstinence" = none
    ∧ ∃ w, findVal tbl a p "Abstinence" = .ok w
        ∧ ∃ lbl, lbl ∈ uniqueVals (tbl.map Row.method) ∧ lbl ≠ "Abstinence"
            ∧ methodNameFor methods lbl = .ok "othtrad"
            ∧ ∃ v, findVal tbl a p lbl = .ok v
                ∧ dictGet d "othtrad" = some (v + w) := by
  unfold processCell at h
  split at h
  · cases h
  case h_2 d1 av1 hcf =>
    split at h
    · cases h
    case h_2 w =>
      split at h
      · cases h
      case h_2 v hoth =>
        cases h
        obtain ⟨ha, hb, hb2, hc⟩ :=
          cellFold_char tbl methods a p habst _ [] av0 d1 (some w) hcf
        obtain ⟨w2, hw2, haveq⟩ := hb hmem
        have hww : w2 = w := by
          injection haveq.symm
        subst hww
        rcases hc with hnone | ⟨lbl, hlbl, hlne, hlmn, v2, hv2, hd1⟩
        · rw [dictGet_nil] at hnone
          rw [hnone] at hoth
          cases hoth
        · have hvv : v2 = v := by
            rw [hd1] at hoth
            injection hoth
          subst hvv
          refine ⟨?_, w2, hw2, lbl, hlbl, hlne, hlmn, v2, hv2, ?_⟩
          · rw [dictGet_dictSet_ne d1 "othtrad" "Abstinence" (v2 + w2)
              (by decide), ha, dictGet_nil]
          · exact dictGet_dictSet_self d1 "othtrad" (v2 + w2)

theorem processCell_none_fail (tbl : List Row) (methods : List Method)
    (a : String) (p : Nat)
    (habst : ∀ m ∈ methods, m.name ≠ "Abstinence")
    (hni : "Abstinence" ∉ uniqueVals (tbl.map Row.method))
    (d : List (String × ℚ)) (av2 : Option ℚ) :
    processCell tbl methods a p none ≠ .ok (d, av2) := by
  intro h
  unfold processCell at h
  split at h
  · cases h
  case h_2 d1 av1 hcf =>
    obtain ⟨-, -, hb2, -⟩ :=
      cellFold_char tbl methods a p habst _ [] none d1 av1 hcf
    have hav1 : av1 = none := hb2 hni
    subst hav1
    cases h

theorem cellStep_elems (tbl : List Row) (methods : List Method) :
    ∀ (cells : List (String × Nat))
      (dd0 : List ((String × Nat) × List (String × ℚ))) (av0 : Option ℚ)
      (dd : List ((String × Nat) × List (String × ℚ))) (avF : Option ℚ),
      foldE (cellStep tbl methods) (dd0, av0) cells = .ok (dd, avF) →
      ∀ x ∈ dd, x ∈ dd0
        ∨ ∃ a0 a1, processCell tbl methods x.1.1 x.1.2 a0 = .ok (x.2, a1) := by
  intro cells
  induction cells with
  | nil =>
    intro dd0 av0 dd avF h x hx
    unfold foldE at h
    injection h with h2
    injection h2 with h3 h4
    subst h3
    exact Or.inl hx
  | cons c rest ih =>
    intro dd0 av0 dd avF h x hx
    simp only [foldE] at h
    split at h
    · cases h
    case h_2 b2 hb2 =>
      unfold cellStep at hb2
      split at hb2
      · cases hb2
      case h_2 dcell avcell hdav =>
        cases hb2
        rcases ih _ _ dd avF h x hx with hx2 | h3
        · rcases List.mem_append.mp hx2 with hx3 | hx4
          · exact Or.inl hx3
          · have hxc : x = (c, dcell) := by simpa using hx4
            subst hxc
            exact Or.inr ⟨av0, avcell, hdav⟩
        · exact Or.inr h3

theorem cellStep_first_abst (tbl : List Row) (methods : List Method)
    (habst : ∀ m ∈ methods, m.name ≠ "Abstinence") :
    ∀ (cells : List (String × Nat))
      (dd0 dd : List ((String × Nat) × List (String × ℚ))) (avF : Option ℚ),
      cells ≠ [] →
      foldE (cellStep tbl methods) (dd0, none) cells = .ok (dd, avF) →
      "Abstinence" ∈ uniqueVals (tbl.map Row.method) := by
  intro cells dd0 dd avF hne h
  cases cells with
  | nil => exact absurd rfl hne
  | cons c rest =>
    simp only [foldE] at h
    split at h
    · cases h
    case h_2 b2 hb2 =>
      unfold cellStep at hb2
      split at hb2
      · cases hb2
      case h_2 dcell avcell hdav =>
        by_contra hni
        exact processCell_none_fail tbl methods c.1 c.2 habst hni dcell avcell hdav

/-- C4: whenever the loader succeeds (and no catalog method is itself named
"Abstinence"), every (age-group, parity) cell of the resulting mapping has
no "Abstinence" key, and its `othtrad` share equals the raw table share of
the label mapped to `othtrad` plus — added exactly once — the table's
Abstinence share *for that same cell*. -/
theorem c4_theorem (tbl : List Row) (methods : List Method)
    (dd : List ((String × Nat) × List (String × ℚ)))
    (habst : ∀ m ∈ methods, m.name ≠ "Abstinence")
    (hproc : process_method_pars tbl methods = .ok dd) :
    ∀ (ap : String × Nat) (d : List (String × ℚ)), (ap, d) ∈ dd →
      dictGet d "Abstinence" = none
      ∧ ∃ w, findVal tbl ap.1 ap.2 "Abstinence" = .ok w
          ∧ ∃ lbl, lbl ∈ uniqueVals (tbl.map Row.method) ∧ lbl ≠ "Abstinence"
              ∧ methodNameFor methods lbl = .ok "othtrad"
              ∧ ∃ v, findVal tbl ap.1 ap.2 lbl = .ok v
                  ∧ dictGet d "othtrad" = some (v + w) := by
  intro ap d hmem
  unfold process_method_pars at hproc
  split at hproc
  · cases hproc
  case h_2 dd2 avF hfold =>
    cases hproc
    have hcells_ne : cellKeys tbl ≠ [] := by
      intro hnil
      rw [hnil] at hfold
      unfold foldE at hfold
      injection hfold with h2
      injection h2 with h3 h4
      subst h3
      simp at hmem
    have habstmem := cellStep_first_abst tbl methods habst (cellKeys tbl)
      [] dd avF hcells_ne hfold
    rcases cellStep_elems tbl methods (cellKeys tbl) [] none dd avF hfold
        (ap, d) hmem with hx | ⟨a0, a1, hpc⟩
    · simp at hx
    · exact processCell_char tbl methods ap.1 ap.2 a0 d a1 habst habstmem hpc

/-- C4 witness: on the fixture table `tblC` the cell (18-25, parity 0) has
no Abstinence key and `othtrad = 2/10 + 5/10`, the other-traditional and
Abstinence shares of that very cell. -/
theorem c4_witness :
    dictGet [("pill", 3/10), ("othtrad", 7/10)] "Abstinence" = none
      ∧ ∃ w, findVal tblC "18-25" 0 "Abstinence" = .ok w
          ∧ ∃ lbl, lbl ∈ uniqueVals (tblC.map Row.method) ∧ lbl ≠ "Abstinence"
              ∧ methodNameFor methodsC lbl = .ok "othtrad"
              ∧ ∃ v, findVal tblC "18-25" 0 lbl = .ok v
                  ∧ dictGet [("pill", 3/10), ("othtrad", 7/10)] "othtrad"
                      = some (v + w) := by
  have h := c4_theorem tblC methodsC
    [(("18-25", 0), [("pill", 3/10), ("othtrad", 7/10)]),
     (("18-25", 1), [("pill", 6/10), ("othtrad", 4/10)])]
    (by intro m hm; fin_cases hm <;> decide)
    (by with_unfolding_all rfl)
    ("18-25", 0) [("pill", 3/10), ("othtrad", 7/10)]
    (by with_unfolding_all decide)
  exact h

end FPsim
